import Mathlib

/-!
Verification of the line-editing core of `jot.c`, a multiline Readline-based
editor.  The Readline buffer `rl_line_buffer` is embedded as a `List Char`,
the cursor `rl_point` as a `Nat` offset in `[0, length]`, and `rl_end` as
`List.length`.  `rl_backward_char 1` / `rl_forward_char 1` move the cursor by
one character clamped to the buffer, so index arithmetic models them exactly.
Loops with a run-time bound are translated with an explicit fuel argument
chosen so that the fuel never runs out on the loop's reachable states; this
keeps every definition executable by kernel reduction.
-/

namespace Jot

/-- Translation of `jot_beginning_of_line` (jot.c): starting from the cursor,
step backwards while the preceding character is not a newline; stop right
after a newline or at offset 0.  The function only moves the cursor.  The same
backward scan appears inline in `jot_kill_backward_line`,
`jot_kill_whole_line`, `jot_move_cursor_up`, `jot_move_cursor_down`,
`jot_vi_delete_current_line`, `jot_vi_insert_line_above` and `goto_line`, so
it is reused below for those translations. -/
def jot_beginning_of_line (buf : List Char) : Nat → Nat
  | 0 => 0
  | p + 1 => if buf[p]? = some '\n' then p + 1 else jot_beginning_of_line buf p

/-- Forward scan to the end of the current line with explicit fuel:
one step of `while (q < buffer_len && buf[q] != '\n') q++;`. -/
def lineEndFuel (buf : List Char) : Nat → Nat → Nat
  | 0, q => q
  | fuel + 1, q =>
    if q < buf.length then
      if buf[q]? = some '\n' then q else lineEndFuel buf fuel (q + 1)
    else q

/-- End of the line containing offset `q`: the offset of the terminating
newline, or the buffer length when the line is the final one.  This is the
forward scan `while (q < len && buf[q] != '\n') q++` of `jot_end_of_line`,
which also appears inline in `jot_kill_line`, `jot_kill_whole_line`,
`jot_move_cursor_down`, `jot_move_to_first_nonblank_next_line`,
`jot_vi_delete_current_line`, `jot_vi_delete_to_end_of_line`,
`jot_vi_join_lines` and `jot_vi_insert_line_below`.  The fuel `length - q`
is exactly the number of iterations the loop can still make. -/
def lineEnd (buf : List Char) (q : Nat) : Nat :=
  lineEndFuel buf (buf.length - q) q

/-- Translation of `jot_end_of_line` (jot.c): move the cursor to the end of
the current line (the loop is the `lineEnd` scan). -/
def jot_end_of_line (buf : List Char) (p : Nat) : Nat :=
  lineEnd buf p

theorem lineEnd_step (buf : List Char) (q : Nat) :
    lineEnd buf q =
      if q < buf.length then
        if buf[q]? = some '\n' then q else lineEnd buf (q + 1)
      else q := by
  unfold lineEnd
  rcases h : buf.length - q with _ | n
  · have hq : ¬ q < buf.length := by omega
    rw [if_neg hq]
    rfl
  · have hn : buf.length - (q + 1) = n := by omega
    have hq : q < buf.length := by omega
    rw [hn]
    simp only [lineEndFuel, if_pos hq]

theorem lineEndFuel_le {buf : List Char} :
    ∀ (fuel q : Nat), q ≤ buf.length → lineEndFuel buf fuel q ≤ buf.length
  | 0, _, hq => hq
  | fuel + 1, q, hq => by
    simp only [lineEndFuel]
    by_cases h1 : q < buf.length
    · rw [if_pos h1]
      by_cases h2 : buf[q]? = some '\n'
      · rw [if_pos h2]; exact hq
      · rw [if_neg h2]; exact lineEndFuel_le fuel (q + 1) h1
    · rw [if_neg h1]; exact hq

theorem lineEnd_le {buf : List Char} {q : Nat} (hq : q ≤ buf.length) :
    lineEnd buf q ≤ buf.length :=
  lineEndFuel_le _ _ hq

theorem le_lineEndFuel {buf : List Char} :
    ∀ (fuel q : Nat), q ≤ lineEndFuel buf fuel q
  | 0, _ => Nat.le_refl _
  | fuel + 1, q => by
    simp only [lineEndFuel]
    by_cases h1 : q < buf.length
    · rw [if_pos h1]
      by_cases h2 : buf[q]? = some '\n'
      · rw [if_pos h2]
      · rw [if_neg h2]
        exact Nat.le_trans (Nat.le_succ q) (le_lineEndFuel fuel (q + 1))
    · rw [if_neg h1]

theorem le_lineEnd (buf : List Char) (q : Nat) : q ≤ lineEnd buf q :=
  le_lineEndFuel _ _

theorem lineEndFuel_get {buf : List Char} :
    ∀ (fuel q : Nat), buf.length - q ≤ fuel →
      lineEndFuel buf fuel q < buf.length →
      buf[lineEndFuel buf fuel q]? = some '\n'
  | 0, q, hf, hlt => by
    simp only [lineEndFuel] at hlt ⊢
    omega
  | fuel + 1, q, hf, hlt => by
    simp only [lineEndFuel] at hlt ⊢
    by_cases h1 : q < buf.length
    · rw [if_pos h1] at hlt ⊢
      by_cases h2 : buf[q]? = some '\n'
      · rw [if_pos h2] at hlt ⊢; exact h2
      · rw [if_neg h2] at hlt ⊢
        exact lineEndFuel_get fuel (q + 1) (by omega) hlt
    · rw [if_neg h1] at hlt; omega

/-- When the line-end scan stops strictly inside the buffer, it stops on a
newline character. -/
theorem lineEnd_get {buf : List Char} {q : Nat}
    (h : lineEnd buf q < buf.length) : buf[lineEnd buf q]? = some '\n' :=
  lineEndFuel_get _ _ (Nat.le_refl _) h

/-- Characters strictly between a line start and the offset it was computed
from are never newlines. -/
theorem jot_beginning_of_line_nonl (buf : List Char) :
    ∀ (p j : Nat), jot_beginning_of_line buf p ≤ j → j < p →
      buf[j]? ≠ some '\n'
  | 0, j, _, hj => by omega
  | p + 1, j, hle, hj => by
    by_cases h : buf[p]? = some '\n'
    · simp only [jot_beginning_of_line, if_pos h] at hle
      omega
    · simp only [jot_beginning_of_line, if_neg h] at hle
      by_cases hjp : j = p
      · subst hjp; exact h
      · exact jot_beginning_of_line_nonl buf p j hle (by omega)

theorem jot_beginning_of_line_le (buf : List Char) :
    ∀ p : Nat, jot_beginning_of_line buf p ≤ p
  | 0 => Nat.le_refl _
  | p + 1 => by
    by_cases h : buf[p]? = some '\n'
    · simp only [jot_beginning_of_line, if_pos h]
      exact Nat.le_refl _
    · simp only [jot_beginning_of_line, if_neg h]
      exact Nat.le_trans (jot_beginning_of_line_le buf p) (Nat.le_succ p)

/-- A line start is either the buffer start or sits directly after a
newline. -/
theorem jot_beginning_of_line_cases (buf : List Char) :
    ∀ p : Nat, jot_beginning_of_line buf p = 0 ∨
      (0 < jot_beginning_of_line buf p ∧
        buf[jot_beginning_of_line buf p - 1]? = some '\n')
  | 0 => Or.inl rfl
  | p + 1 => by
    by_cases h : buf[p]? = some '\n'
    · right
      simp only [jot_beginning_of_line, if_pos h]
      exact ⟨by omega, by simpa using h⟩
    · simpa only [jot_beginning_of_line, if_neg h] using
        jot_beginning_of_line_cases buf p

theorem jot_beginning_of_line_fixed {buf : List Char} {q : Nat}
    (h : q = 0 ∨ (0 < q ∧ buf[q - 1]? = some '\n')) :
    jot_beginning_of_line buf q = q := by
  rcases h with h | ⟨hpos, hnl⟩
  · subst h; rfl
  · rcases q with _ | r
    · omega
    · simp only [Nat.succ_sub_one] at hnl
      simp only [jot_beginning_of_line, if_pos hnl]

theorem jot_beginning_of_line_idem (buf : List Char) (p : Nat) :
    jot_beginning_of_line buf (jot_beginning_of_line buf p) =
      jot_beginning_of_line buf p :=
  jot_beginning_of_line_fixed (jot_beginning_of_line_cases buf p)

theorem jot_beginning_of_line_eq_zero (buf : List Char) :
    ∀ p : Nat, (∀ j, j < p → buf[j]? ≠ some '\n') →
      jot_beginning_of_line buf p = 0
  | 0, _ => rfl
  | p + 1, h => by
    have hp : buf[p]? ≠ some '\n' := h p (by omega)
    simp only [jot_beginning_of_line, if_neg hp]
    exact jot_beginning_of_line_eq_zero buf p fun j hj => h j (by omega)

/-- Scanning forward for the line end gives the same answer anywhere inside a
newline-free stretch. -/
theorem lineEnd_eq_of_nonl (buf : List Char) :
    ∀ (b a : Nat), a ≤ b → b ≤ buf.length →
      (∀ j, a ≤ j → j < b → buf[j]? ≠ some '\n') →
      lineEnd buf a = lineEnd buf b := by
  intro b
  induction b with
  | zero =>
    intro a ha _ _
    have h0 : a = 0 := Nat.le_zero.mp ha
    subst h0; rfl
  | succ n ih =>
    intro a ha hb hno
    by_cases hab : a = n + 1
    · subst hab; rfl
    · have ha2 : a ≤ n := by omega
      have step : lineEnd buf n = lineEnd buf (n + 1) := by
        rw [lineEnd_step buf n]
        have hn : n < buf.length := by omega
        have hnl : buf[n]? ≠ some '\n' := hno n (by omega) (by omega)
        rw [if_pos hn, if_neg hnl]
      have := ih a ha2 (by omega) fun j h1 h2 => hno j h1 (by omega)
      omega

/-- The line end computed from a line start equals the line end computed from
the offset itself. -/
theorem lineEnd_jot_beginning_of_line (buf : List Char) (p : Nat)
    (hp : p ≤ buf.length) :
    lineEnd buf (jot_beginning_of_line buf p) = lineEnd buf p :=
  lineEnd_eq_of_nonl buf p (jot_beginning_of_line buf p)
    (jot_beginning_of_line_le buf p) hp
    (fun j h1 h2 => jot_beginning_of_line_nonl buf p j h1 h2)

/-- `rl_insert_text` at an offset: splice a string into the buffer. -/
def insertText (buf : List Char) (i : Nat) (t : List Char) : List Char :=
  buf.take i ++ t ++ buf.drop i

/-- `rl_delete_text (p, p + 1)`: remove the single character at offset `p`. -/
def eraseAt (buf : List Char) (p : Nat) : List Char :=
  buf.take p ++ buf.drop (p + 1)

/-- Translation of `jot_kill_whole_line` (jot.c): scan back to the line start,
forward to the line end, include the newline character if present, kill the
span `[start, end)` (the killed text is saved by `rl_kill_text`) and leave the
cursor at the line start.  Result: `(new buffer, killed text, new cursor)`. -/
def jot_kill_whole_line (buf : List Char) (p : Nat) :
    List Char × List Char × Nat :=
  let start := jot_beginning_of_line buf p
  let e0 := lineEnd buf p
  let e := if e0 < buf.length ∧ buf[e0]? = some '\n' then e0 + 1 else e0
  (buf.take start ++ buf.drop e, (buf.drop start).take (e - start), start)

/-- Column-walk loop of `jot_move_cursor_up` (jot.c):
`for (i = 0; i < line_col; i++) { if (buf[p] == '\n' || p >= rl_end) break;
p++; }`. -/
def upColWalk (buf : List Char) : Nat → Nat → Nat
  | pos, 0 => pos
  | pos, c + 1 =>
    if buf[pos]? = some '\n' ∨ buf.length ≤ pos then pos
    else upColWalk buf (pos + 1) c

/-- One iteration of the `while (count-- > 0)` loop of `jot_move_cursor_up`
(jot.c): scan back to the line start counting the column; if already on the
first line restore the cursor and ding (`none`); otherwise step over the
newline, scan back to the previous line's start and walk forward up to the
column. -/
def moveUpStep (buf : List Char) (p : Nat) : Option Nat :=
  let ls := jot_beginning_of_line buf p
  let col := p - ls
  if ls = 0 then none
  else some (upColWalk buf (jot_beginning_of_line buf (ls - 1)) col)

/-- Translation of `jot_move_cursor_up` (jot.c): repeat the single-line step
`count` times, aborting the remaining repeats with a ding when there is no
previous line.  Result: `(new cursor, whether rl_ding was called)`. -/
def jot_move_cursor_up (buf : List Char) : Nat → Nat → Nat × Bool
  | p, 0 => (p, false)
  | p, count + 1 =>
    match moveUpStep buf p with
    | none => (p, true)
    | some q => jot_move_cursor_up buf q count

/-- Column-walk loop of `jot_move_cursor_down` (jot.c):
`for (i = 0; i < target_col && p < next_line_end; i++) { if (buf[p] == '\n')
break; p++; }`. -/
def downColWalk (buf : List Char) (nle : Nat) : Nat → Nat → Nat
  | pos, 0 => pos
  | pos, c + 1 =>
    if pos < nle then
      if buf[pos]? = some '\n' then pos else downColWalk buf nle (pos + 1) c
    else pos

/-- One iteration of the `while (count-- > 0)` loop of `jot_move_cursor_down`
(jot.c): find the current line's start (counting the column) and end; if the
line end reaches the buffer end there is no line below, so restore the cursor
and ding (`none`); otherwise move past the newline, find the next line's end,
clamp the column to the next line's length and walk to it.  The final
`if (rl_point > next_line_end) rl_point = next_line_end` clamp of the C code
is kept verbatim. -/
def moveDownStep (buf : List Char) (p : Nat) : Option Nat :=
  let ls := jot_beginning_of_line buf p
  let col := p - ls
  let le := lineEnd buf ls
  if buf.length ≤ le then none
  else
    let nls := if buf[le]? = some '\n' then le + 1 else le
    let nle := lineEnd buf nls
    let targetCol := min col (nle - nls)
    let q := downColWalk buf nle nls targetCol
    some (if nle < q then nle else q)

/-- Translation of `jot_move_cursor_down` (jot.c): repeat the single-line
step `count` times, aborting the remaining repeats with a ding when there is
no line below.  Result: `(new cursor, whether rl_ding was called)`. -/
def jot_move_cursor_down (buf : List Char) : Nat → Nat → Nat × Bool
  | p, 0 => (p, false)
  | p, count + 1 =>
    match moveDownStep buf p with
    | none => (p, true)
    | some q => jot_move_cursor_down buf q count

/-- The C-locale `isspace` predicate used by `jot.c` via `<ctype.h>`:
space, tab, newline, vertical tab, form feed, carriage return. -/
def isspaceC (c : Char) : Bool :=
  c == ' ' || c == '\t' || c == '\n' || c == '\x0b' || c == '\x0c' || c == '\r'

/-- Skip loop of `jot_move_to_first_nonblank_next_line` (jot.c):
`while (pos < next_line_end && isspace(buf[pos])) pos++;`, with fuel
`next_line_end - pos`. -/
def fnblSkipFuel (buf : List Char) (nle : Nat) : Nat → Nat → Nat
  | 0, pos => pos
  | fuel + 1, pos =>
    if pos < nle ∧ isspaceC (buf.getD pos ' ') then
      fnblSkipFuel buf nle fuel (pos + 1)
    else pos

/-- One iteration of the `while (count-- > 0)` loop of
`jot_move_to_first_nonblank_next_line` (jot.c): find the current line's end;
if it reaches the buffer end, ding (`none`); otherwise move to the next
line's start and skip its leading `isspace` characters without crossing the
next line's end. -/
def fnblStep (buf : List Char) (p : Nat) : Option Nat :=
  let le := lineEnd buf p
  if buf.length ≤ le then none
  else
    let nls := le + 1
    let nle := lineEnd buf nls
    some (fnblSkipFuel buf nle (nle - nls) nls)

/-- Translation of `jot_move_to_first_nonblank_next_line` (jot.c): repeat the
single-line step `count` times, aborting the remaining repeats with a ding
when on the last line.  Result: `(new cursor, whether rl_ding was called)`. -/
def jot_move_to_first_nonblank_next_line (buf : List Char) :
    Nat → Nat → Nat × Bool
  | p, 0 => (p, false)
  | p, count + 1 =>
    match fnblStep buf p with
    | none => (p, true)
    | some q => jot_move_to_first_nonblank_next_line buf q count

/-- Line-counting scan of `goto_line` (jot.c):
`while (pos < buffer_len && current_line <= target_line)
   { if (buf[pos++] == '\n') current_line++; }`, with fuel `length - pos`.
Line numbers are `Int` because the C `count` argument is a (possibly
negative) `int`. -/
def gotoScanFuel (buf : List Char) (target : Int) : Nat → Nat → Int → Nat
  | 0, pos, _ => pos
  | fuel + 1, pos, cur =>
    if pos < buf.length ∧ cur ≤ target then
      gotoScanFuel buf target fuel (pos + 1)
        (if buf[pos]? = some '\n' then cur + 1 else cur)
    else pos

def gotoScan (buf : List Char) (pos : Nat) (cur target : Int) : Nat :=
  gotoScanFuel buf target (buf.length - pos) pos cur

/-- The `if (pos > 0 && buf[pos-1] == '\n') pos--;` adjustment of `goto_line`
(jot.c), which steps back over a newline the counting scan just consumed. -/
def backAfterNewline (buf : List Char) (pos : Nat) : Nat :=
  if 0 < pos ∧ buf[pos - 1]? = some '\n' then pos - 1 else pos

/-- First-non-blank scan of `goto_line` (jot.c):
`while (pos < buffer_len && isspace(buf[pos]) && buf[pos] != '\n') pos++;`,
with fuel `length - pos`. -/
def skipBlanksFuel (buf : List Char) : Nat → Nat → Nat
  | 0, pos => pos
  | fuel + 1, pos =>
    if pos < buf.length ∧ isspaceC (buf.getD pos ' ') ∧ buf[pos]? ≠ some '\n'
    then skipBlanksFuel buf fuel (pos + 1)
    else pos

def skipBlanks (buf : List Char) (pos : Nat) : Nat :=
  skipBlanksFuel buf (buf.length - pos) pos

/-- Translation of `goto_line` (jot.c): scan forward counting newlines until
the 1-indexed target line (clamping at the buffer end), step back to the
start of the line reached, then forward to its first character that is not a
non-newline `isspace` character. -/
def goto_line (buf : List Char) (target : Int) : Nat :=
  skipBlanks buf
    (jot_beginning_of_line buf (backAfterNewline buf (gotoScan buf 0 1 target)))

/-- The C `INT_MAX` used by `jot_vi_goto_line` when no explicit count is
given. -/
def INT_MAX : Int := 2147483647

/-- Translation of `jot_vi_goto_line` (jot.c): with an explicit argument go
to that line, otherwise go to line `INT_MAX` (clamped to the last line). -/
def jot_vi_goto_line (buf : List Char) (explicitArg : Bool) (count : Int) :
    Nat :=
  if explicitArg then goto_line buf count else goto_line buf INT_MAX

/-- Translation of `jot_vi_goto_first_line` (jot.c): with an explicit
argument go to that line, otherwise go to line 1. -/
def jot_vi_goto_first_line (buf : List Char) (explicitArg : Bool)
    (count : Int) : Nat :=
  if explicitArg then goto_line buf count else goto_line buf 1

/-- Blank-stripping loop of `jot_vi_join_lines` (jot.c):
`while (p < buffer_len) { c = buf[p]; if (c != ' ' && c != '\t') break;
rl_delete_text(p, p + 1); }`, with fuel `length - p` (each deletion shrinks
the buffer by one). -/
def stripBlanksFuel : Nat → List Char → Nat → List Char
  | 0, buf, _ => buf
  | fuel + 1, buf, p =>
    if p < buf.length ∧ (buf.getD p ' ' = ' ' ∨ buf.getD p ' ' = '\t') then
      stripBlanksFuel fuel (eraseAt buf p) p
    else buf

def jotStripBlanks (buf : List Char) (p : Nat) : List Char :=
  stripBlanksFuel (buf.length - p) buf p

/-- One iteration of the `while (count-- > 0)` loop of `jot_vi_join_lines`
(jot.c): move to the end of the current line; if there is no newline there,
restore the cursor and ding (`none`); otherwise delete the newline, strip the
next line's leading spaces and tabs, and insert one space when both boundary
characters are present (`'\x00'` is the C sentinel for a missing one) and
neither is a space or a newline.  The cursor is restored to its starting
offset, so only the buffer is returned. -/
def viJoinStep (buf : List Char) (p : Nat) : Option (List Char) :=
  let e := lineEnd buf p
  if e < buf.length ∧ buf[e]? = some '\n' then
    let buf2 := jotStripBlanks (eraseAt buf e) e
    let before := if 0 < e then buf2.getD (e - 1) '\x00' else '\x00'
    let after := if e < buf2.length then buf2.getD e '\x00' else '\x00'
    if before ≠ '\x00' ∧ after ≠ '\x00' ∧ before ≠ ' ' ∧ after ≠ ' ' ∧
        before ≠ '\n' ∧ after ≠ '\n' then
      some (insertText buf2 e [' '])
    else some buf2
  else none

/-- Translation of `jot_vi_join_lines` (jot.c): repeat the single join step
`count` times, aborting the remaining repeats with a ding when there is no
following line.  Result: `(new buffer, cursor, whether rl_ding was
called)`. -/
def jot_vi_join_lines (buf : List Char) (p : Nat) :
    Nat → List Char × Nat × Bool
  | 0 => (buf, p, false)
  | count + 1 =>
    match viJoinStep buf p with
    | none => (buf, p, true)
    | some buf2 => jot_vi_join_lines buf2 p count

/-- End-offset loop of `jot_vi_delete_to_end_of_line` (jot.c):
`for (i = 0; i < count; i++) { while (e < len && buf[e] != '\n') e++;
if (i < count - 1 && e < len && buf[e] == '\n') e++; }`, recursing on the
remaining iteration count. -/
def delEndScan (buf : List Char) : Nat → Nat → Nat
  | e, 0 => e
  | e, count + 1 =>
    let e1 := lineEnd buf e
    if count = 0 then e1
    else delEndScan buf
      (if e1 < buf.length ∧ buf[e1]? = some '\n' then e1 + 1 else e1) count

/-- Translation of `jot_vi_delete_to_end_of_line` (jot.c): kill from the
cursor to the end offset computed by `delEndScan` and leave the cursor in
place.  Result: `(new buffer, new cursor)`. -/
def jot_vi_delete_to_end_of_line (buf : List Char) (p count : Nat) :
    List Char × Nat :=
  (buf.take p ++ buf.drop (delEndScan buf p count), p)

/-- Start of the line following the one containing `p`, as the spec describes
it: just past the terminating newline, or the buffer end when the line has no
terminating newline. -/
def nextLineStart (buf : List Char) (p : Nat) : Nat :=
  if lineEnd buf p < buf.length then lineEnd buf p + 1 else lineEnd buf p

/-- Spec-side description of the region deleted by viDeleteToEndOfLine,
written from the spec's words: the deletion runs from the cursor to the end
of the current line plus `count - 1` additional full following lines, where
every deleted segment except the last includes its terminating newline and
the last deleted segment's trailing newline is excluded. -/
def specDeleteEnd (buf : List Char) : Nat → Nat → Nat
  | p, 0 => p
  | p, 1 => lineEnd buf p
  | p, count + 2 => specDeleteEnd buf (nextLineStart buf p) (count + 1)

/-- Number of content lines of a buffer: newline count, plus one for a final
segment not terminated by a newline.  A trailing newline contributes no extra
(phantom) line, matching the spec's data-model invariant. -/
def contentLineCount (buf : List Char) : Nat :=
  buf.count '\n' + (if buf ≠ [] ∧ buf.getLast? ≠ some '\n' then 1 else 0)

/-- Start offset of the final content line: when the buffer ends with a
newline that newline belongs to the final content line, so the backward scan
starts just before it. -/
def finalContentLineStart (buf : List Char) : Nat :=
  if buf.getLast? = some '\n' then jot_beginning_of_line buf (buf.length - 1)
  else jot_beginning_of_line buf buf.length

/-- Spec-side scan used to state C5 as written: the first character at or
after `pos` that is not a space or a tab (and without leaving the buffer). -/
def specFirstNonSpaceTabFuel (buf : List Char) : Nat → Nat → Nat
  | 0, pos => pos
  | fuel + 1, pos =>
    if pos < buf.length ∧ (buf.getD pos ' ' = ' ' ∨ buf.getD pos ' ' = '\t')
    then specFirstNonSpaceTabFuel buf fuel (pos + 1)
    else pos

def specFirstNonSpaceTab (buf : List Char) (pos : Nat) : Nat :=
  specFirstNonSpaceTabFuel buf (buf.length - pos) pos

/-- Outcome of `getopt` option parsing in `main` (jot.c): either the usage
error path (`default:` case, which prints the usage string and exits with
`EXIT_FAILURE`) or the accepted options plus the positional `filename`. -/
inductive ParseResult where
  | usageError : ParseResult
  | ok (opt_e : Bool) (banner : Option (List Char)) (file : Option (List Char)) :
      ParseResult
deriving DecidableEq

/-- Scan the option characters of one `-...` token against the option string
"eb:" used by `main` (jot.c): `e` sets `opt_e`, `b` takes the rest of the
token (or, when empty, the next argument: third component `true`) as
`optarg`, and any other character is the `default:` usage-error case. -/
def scanOptTok (e : Bool) (b : Option (List Char)) :
    List Char → Except Unit (Bool × Option (List Char) × Bool)
  | [] => .ok (e, b, false)
  | c :: cs =>
    if c = 'e' then scanOptTok true b cs
    else if c = 'b' then
      match cs with
      | [] => .ok (e, b, true)
      | _ :: _ => .ok (e, some cs, false)
    else .error ()

/-- The `while ((opt = getopt(argc, argv, "eb:")) != -1)` loop of `main`
(jot.c), over the argument tokens after the program name: option tokens are
scanned with `scanOptTok`, `--` ends option parsing, and the first
non-option token stops the loop and becomes the positional `filename`
(`argv[optind]`). -/
def jotParseLoop : Bool → Option (List Char) → List (List Char) → ParseResult
  | e, b, [] => .ok e b none
  | e, b, tok :: rest =>
    if tok.take 1 ≠ ['-'] ∨ tok = ['-'] then .ok e b (some tok)
    else if tok = ['-', '-'] then .ok e b rest.head?
    else
      match scanOptTok e b (tok.drop 1) with
      | .error _ => .usageError
      | .ok (e2, b2, false) => jotParseLoop e2 b2 rest
      | .ok (e2, _, true) =>
        match rest with
        | [] => .usageError
        | arg :: rest2 => jotParseLoop e2 (some arg) rest2

/-- Command-line parsing of `main` (jot.c) on the arguments after the
program name. -/
def jot_getopt (args : List (List Char)) : ParseResult :=
  jotParseLoop false none args

/-- The saved-termios guard of jot.c: `termios_saved` flag, the snapshot
`original_termios`, and the live terminal attributes; attribute values are
abstracted as naturals. -/
structure GuardState where
  termios_saved : Bool
  original_termios : Nat
  terminal : Nat
deriving DecidableEq

/-- Translation of `restore_terminal_settings` (jot.c).  `openOk` models
whether `open("/dev/tty")` succeeds and `tcsetOk` whether `tcsetattr`
succeeds; on either failure the function returns early without touching the
flag.  Only a fully successful call reapplies `original_termios` and clears
`termios_saved`.  The second component records whether this call performed
the restoration (reached the successful `tcsetattr`). -/
def restore_terminal_settings (s : GuardState) (openOk tcsetOk : Bool) :
    GuardState × Bool :=
  if s.termios_saved then
    if openOk then
      if tcsetOk then
        ({ s with terminal := s.original_termios, termios_saved := false },
          true)
      else (s, false)
    else (s, false)
  else (s, false)

/-- A sequence of calls to `restore_terminal_settings` (from the error-exit
path, the normal exit path and/or the signal handler, each with its own I/O
outcome), returning the final state and how many of the calls performed the
restoration. -/
def runRestores : GuardState → List (Bool × Bool) → GuardState × Nat
  | s, [] => (s, 0)
  | s, c :: cs =>
    let r := restore_terminal_settings s c.1 c.2
    let rest := runRestores r.1 cs
    (rest.1, (if r.2 then 1 else 0) + rest.2)

/-- The `errno` value `ENOENT`. -/
def ENOENT : Nat := 2

def EXIT_FAILURE : Nat := 1

/-- Which call inside `read_file_contents` (jot.c) fails, if any, and with
which `errno`; `success` carries the bytes read. -/
inductive ReadOutcome where
  | openFail (e : Nat)
  | seekEndFail (e : Nat)
  | tellFail (e : Nat)
  | seekSetFail (e : Nat)
  | mallocFail (e : Nat)
  | readFail (e : Nat)
  | success (contents : List Char)
deriving DecidableEq

/-- The `errno` left by a failing call of `read_file_contents`, or `none` on
success. -/
def failErrno : ReadOutcome → Option Nat
  | .openFail e => some e
  | .seekEndFail e => some e
  | .tellFail e => some e
  | .seekSetFail e => some e
  | .mallocFail e => some e
  | .readFail e => some e
  | .success _ => none

/-- Result of `read_file_contents` (jot.c): the contents on success (`none`
on any failure), whether a `perror` diagnostic was printed, and the `errno`
after the call (0 meaning untouched). -/
structure ReadResult where
  contents : Option (List Char)
  diag : Bool
  errno : Nat
deriving DecidableEq

/-- Translation of `read_file_contents` (jot.c): `fopen` failing with
`ENOENT` returns NULL silently (empty-buffer path); every other failure
prints a `perror` diagnostic and returns NULL; otherwise the file's bytes are
returned. -/
def read_file_contents : ReadOutcome → ReadResult
  | .openFail e => if e ≠ ENOENT then ⟨none, true, e⟩ else ⟨none, false, e⟩
  | .seekEndFail e => ⟨none, true, e⟩
  | .tellFail e => ⟨none, true, e⟩
  | .seekSetFail e => ⟨none, true, e⟩
  | .mallocFail e => ⟨none, true, e⟩
  | .readFail e => ⟨none, true, e⟩
  | .success cs => ⟨some cs, false, 0⟩

/-- Outcome of the file-loading step of `main` (jot.c): either the fatal path
(`exit_status = EXIT_FAILURE; goto exit_program`) or the session proceeds
with the given initial buffer (exit status untouched). -/
inductive LoadResult where
  | fatalExit (code : Nat)
  | proceedWith (buf : List Char)
deriving DecidableEq

/-- Translation of the `if (filename) { if (!opt_e) { ... } }` block of
`main` (jot.c) for a given filename without `-e`: a NULL result with
`errno != ENOENT` is fatal; a NULL result with `errno == ENOENT` proceeds
with an empty buffer; otherwise the session starts from the file's
contents. -/
def mainLoadFile (o : ReadOutcome) : LoadResult :=
  let r := read_file_contents o
  match r.contents with
  | some cs => .proceedWith cs
  | none => if r.errno ≠ ENOENT then .fatalExit EXIT_FAILURE
            else .proceedWith []

/-- Readline editing state visible to jot's commands: the buffer
`rl_line_buffer` and the cursor `rl_point`. -/
structure EditorState where
  buffer : List Char
  point : Nat
deriving DecidableEq

/-- `jot_beginning_of_line` acting on the full editing state (it writes only
`rl_point`). -/
def runBeginningOfLine (s : EditorState) : EditorState :=
  { buffer := s.buffer, point := jot_beginning_of_line s.buffer s.point }

/-- `jot_end_of_line` acting on the full editing state. -/
def runEndOfLine (s : EditorState) : EditorState :=
  { buffer := s.buffer, point := jot_end_of_line s.buffer s.point }

/-- `jot_move_cursor_up` acting on the full editing state. -/
def runMoveUp (s : EditorState) (count : Nat) : EditorState :=
  { buffer := s.buffer, point := (jot_move_cursor_up s.buffer s.point count).1 }

/-- `jot_move_cursor_down` acting on the full editing state. -/
def runMoveDown (s : EditorState) (count : Nat) : EditorState :=
  { buffer := s.buffer,
    point := (jot_move_cursor_down s.buffer s.point count).1 }

/-- `jot_vi_goto_line` acting on the full editing state. -/
def runGotoLine (s : EditorState) (explicitArg : Bool) (count : Int) :
    EditorState :=
  { buffer := s.buffer, point := jot_vi_goto_line s.buffer explicitArg count }

/-- `jot_vi_goto_first_line` acting on the full editing state. -/
def runGotoFirstLine (s : EditorState) (explicitArg : Bool) (count : Int) :
    EditorState :=
  { buffer := s.buffer,
    point := jot_vi_goto_first_line s.buffer explicitArg count }

/-- `jot_move_to_first_nonblank_next_line` acting on the full editing
state. -/
def runFirstNonblankNextLine (s : EditorState) (count : Nat) : EditorState :=
  { buffer := s.buffer,
    point := (jot_move_to_first_nonblank_next_line s.buffer s.point count).1 }

theorem restore_not_performed (s : GuardState) (o t : Bool)
    (h : (restore_terminal_settings s o t).2 = false) :
    (restore_terminal_settings s o t).1 = s := by
  rcases hs : s.termios_saved <;> rcases o <;> rcases t <;>
    simp [restore_terminal_settings, hs] at h ⊢

theorem restore_performed_clears (s : GuardState) (o t : Bool)
    (h : (restore_terminal_settings s o t).2 = true) :
    (restore_terminal_settings s o t).1.termios_saved = false := by
  rcases hs : s.termios_saved <;> rcases o <;> rcases t <;>
    simp [restore_terminal_settings, hs] at h ⊢

theorem restore_not_saved {s : GuardState} (h : s.termios_saved = false)
    (o t : Bool) : restore_terminal_settings s o t = (s, false) := by
  simp [restore_terminal_settings, h]

theorem runRestores_not_saved {s : GuardState} (h : s.termios_saved = false) :
    ∀ cs, runRestores s cs = (s, 0)
  | [] => rfl
  | c :: cs => by
    simp [runRestores, restore_not_saved h, runRestores_not_saved h cs]

/-- C8: terminal-state restoration is one-shot.  Across any sequence of calls
to `restore_terminal_settings` (normal exit, error exit, signal handler, each
with arbitrary open/tcsetattr outcomes) at most one call performs the
restoration, and once a call has performed it every subsequent sequence of
calls leaves the guard state entirely unchanged (no further terminal
writes). -/
theorem c8_restore_terminal_once (s : GuardState) (calls : List (Bool × Bool)) :
    (runRestores s calls).2 ≤ 1 ∧
    ∀ (o t : Bool) (cs : List (Bool × Bool)),
      (restore_terminal_settings s o t).2 = true →
      runRestores (restore_terminal_settings s o t).1 cs =
        ((restore_terminal_settings s o t).1, 0) := by
  constructor
  · induction calls generalizing s with
    | nil => simp [runRestores]
    | cons c cs ih =>
      show (runRestores s (c :: cs)).2 ≤ 1
      simp only [runRestores]
      rcases hr : (restore_terminal_settings s c.1 c.2).2
      · have hs : (restore_terminal_settings s c.1 c.2).1 = s :=
          restore_not_performed s c.1 c.2 hr
        simpa [hs] using ih s
      · have hs : (restore_terminal_settings s c.1 c.2).1.termios_saved
            = false := restore_performed_clears s c.1 c.2 hr
        simp [runRestores_not_saved hs cs]
  · intro o t cs hperf
    exact runRestores_not_saved (restore_performed_clears s o t hperf) cs

/-- Witness for C8 at a concrete guard state and call sequence. -/
theorem c8_witness :
    (runRestores ⟨true, 3, 7⟩ [(true, true), (true, true), (false, true)]).2
        ≤ 1 ∧
    (restore_terminal_settings ⟨true, 3, 7⟩ true true).2 = true ∧
    runRestores (restore_terminal_settings ⟨true, 3, 7⟩ true true).1
        [(true, true)] =
      ((restore_terminal_settings ⟨true, 3, 7⟩ true true).1, 0) :=
  ⟨(c8_restore_terminal_once ⟨true, 3, 7⟩
      [(true, true), (true, true), (false, true)]).1,
    by decide,
    (c8_restore_terminal_once ⟨true, 3, 7⟩ []).2 true true [(true, true)]
      (by decide)⟩

/-- C9: a missing target file (fopen fails with ENOENT) starts the session
with an empty buffer, prints no diagnostic and is not fatal, while any open
or read failure whose errno is not ENOENT prints a diagnostic and makes the
session fatal with exit status EXIT_FAILURE. -/
theorem c9_missing_file_not_fatal :
    (mainLoadFile (.openFail ENOENT) = .proceedWith [] ∧
      (read_file_contents (.openFail ENOENT)).diag = false) ∧
    ∀ (o : ReadOutcome) (e : Nat), failErrno o = some e → e ≠ ENOENT →
      mainLoadFile o = .fatalExit EXIT_FAILURE ∧
      (read_file_contents o).diag = true := by
  refine ⟨by decide, ?_⟩
  intro o e he hne
  cases o
  case success cs => exact absurd he (by simp [failErrno])
  all_goals
    simp only [failErrno, Option.some.injEq] at he
    subst he
    simp [mainLoadFile, read_file_contents, hne]

/-- Witness for C9 at a concrete read failure. -/
theorem c9_witness :
    failErrno (.readFail 5) = some 5 ∧ (5 : Nat) ≠ ENOENT ∧
    mainLoadFile (.readFail 5) = .fatalExit EXIT_FAILURE ∧
    (read_file_contents (.readFail 5)).diag = true :=
  ⟨by decide, by decide,
    (c9_missing_file_not_fatal.2 (.readFail 5) 5 (by decide) (by decide)).1,
    (c9_missing_file_not_fatal.2 (.readFail 5) 5 (by decide) (by decide)).2⟩

/-- C7: beginningOfLine is idempotent: applying it twice from any starting
state yields the same cursor offset as applying it once, and the buffer
content is unchanged by every application. -/
theorem c7_beginning_of_line_idempotent (s : EditorState) :
    runBeginningOfLine (runBeginningOfLine s) = runBeginningOfLine s ∧
    (runBeginningOfLine s).buffer = s.buffer := by
  refine ⟨?_, rfl⟩
  simp [runBeginningOfLine, jot_beginning_of_line_idem]

/-- C1: the claim fails on the code.  `main` parses options with
`getopt(argc, argv, "eb:")`, so `-p` takes the `default:` branch: the
invocation is rejected as a usage error (usage printed, exit status
EXIT_FAILURE) and no standard-input reading ever happens, although the
repository's man page documents `-p, --pipe`. -/
theorem c1_dash_p_usage_error :
    jot_getopt [['-', 'p']] = ParseResult.usageError ∧
    jot_getopt [['-', 'e'], ['-', 'p']] = ParseResult.usageError := by
  decide

/-- C4 counterexample: the buffer "abc\n" has exactly one content line, so
offset 0 lies on its last line, yet moveDown from offset 0 moves the cursor
to offset 4 (the empty segment after the trailing newline) and does not
ding — the claim's "no-op with bell on the last line" fails when the buffer
ends with a newline. -/
theorem c4_counterexample :
    contentLineCount ['a', 'b', 'c', '\n'] = 1 ∧
    jot_move_cursor_down ['a', 'b', 'c', '\n'] 0 1 = (4, false) := by
  decide

/-- C4 (amended): moveDown is a no-op that signals the bell exactly on a line
with no terminating newline, i.e. when the cursor's line end equals the
buffer length.  When the buffer ends with a newline, the trailing empty
segment counts as a navigable line, so moveDown from the final content line
moves to the buffer end instead of being a no-op. -/
theorem c4_move_down_no_newline_below (buf : List Char) (p count : Nat)
    (hp : p ≤ buf.length) (hc : 1 ≤ count)
    (hle : lineEnd buf p = buf.length) :
    jot_move_cursor_down buf p count = (p, true) := by
  rcases count with _ | c
  · omega
  · have hstep : moveDownStep buf p = none := by
      have h1 : lineEnd buf (jot_beginning_of_line buf p) = buf.length := by
        rw [lineEnd_jot_beginning_of_line buf p hp, hle]
      simp only [moveDownStep, h1]
      simp
    simp [jot_move_cursor_down, hstep]

/-- Witness for C4 (amended) at a concrete buffer. -/
theorem c4_witness :
    (0 : Nat) ≤ (['a', 'b', 'c'] : List Char).length ∧ (1 : Nat) ≤ 1 ∧
    lineEnd ['a', 'b', 'c'] 0 = (['a', 'b', 'c'] : List Char).length ∧
    jot_move_cursor_down ['a', 'b', 'c'] 0 1 = (0, true) :=
  ⟨by decide, by decide, by decide,
    c4_move_down_no_newline_below ['a', 'b', 'c'] 0 1 (by decide) (by decide)
      (by decide)⟩

/-- The newline-inclusion step of `jot_vi_delete_to_end_of_line` coincides
with the spec's next-line start, because the line-end scan only stops inside
the buffer on a newline. -/
theorem delStep_eq_nextLineStart (buf : List Char) (e : Nat) :
    (if lineEnd buf e < buf.length ∧ buf[lineEnd buf e]? = some '\n'
     then lineEnd buf e + 1 else lineEnd buf e) = nextLineStart buf e := by
  unfold nextLineStart
  by_cases h : lineEnd buf e < buf.length
  · rw [if_pos ⟨h, lineEnd_get h⟩, if_pos h]
  · rw [if_neg (fun hc => h hc.1), if_neg h]

theorem delEndScan_two (buf : List Char) (e count : Nat) :
    delEndScan buf e (count + 2) =
      delEndScan buf
        (if lineEnd buf e < buf.length ∧ buf[lineEnd buf e]? = some '\n'
         then lineEnd buf e + 1 else lineEnd buf e) (count + 1) := by
  conv_lhs => rw [delEndScan]
  simp

theorem delEndScan_eq_specDeleteEnd (buf : List Char) :
    ∀ (count e : Nat), 1 ≤ count →
      delEndScan buf e count = specDeleteEnd buf e count
  | 0, _, h => absurd h (by omega)
  | 1, e, _ => by simp [delEndScan, specDeleteEnd]
  | count + 2, e, _ => by
    rw [delEndScan_two, delStep_eq_nextLineStart,
      delEndScan_eq_specDeleteEnd buf (count + 1) (nextLineStart buf e)
        (by omega)]
    rfl

/-- C2: viDeleteToEndOfLine kills exactly the region from the cursor to the
spec-described end offset — the end of the current line plus `count - 1`
additional full following lines, all but the final deleted segment including
their terminating newline — and leaves the cursor in place. -/
theorem c2_vi_delete_to_end_of_line (buf : List Char) (p count : Nat)
    (hcount : 1 ≤ count) :
    jot_vi_delete_to_end_of_line buf p count =
      (buf.take p ++ buf.drop (specDeleteEnd buf p count), p) := by
  unfold jot_vi_delete_to_end_of_line
  rw [delEndScan_eq_specDeleteEnd buf count p hcount]

/-- Witness for C2 on the buffer "ab\ncd" with the cursor on 'b' and
count 2: the segments "b\n" and "cd" are deleted, leaving "a". -/
theorem c2_witness :
    (1 : Nat) ≤ 2 ∧
    jot_vi_delete_to_end_of_line ['a', 'b', '\n', 'c', 'd'] 1 2 = (['a'], 1) :=
  ⟨by decide,
    (c2_vi_delete_to_end_of_line ['a', 'b', '\n', 'c', 'd'] 1 2
        (by decide)).trans (by decide)⟩

/-- Re-inserting a killed span at the offset it was killed from restores the
original buffer. -/
theorem insert_killed (buf : List Char) (s e : Nat) (hs : s ≤ buf.length)
    (hse : s ≤ e) :
    insertText (buf.take s ++ buf.drop e) s ((buf.drop s).take (e - s))
      = buf := by
  have hlen : (buf.take s).length = s := by
    rw [List.length_take]; omega
  unfold insertText
  have h1 : (buf.take s ++ buf.drop e).take s = buf.take s := by
    rw [List.take_append_of_le_length (by omega), List.take_take,
      Nat.min_self]
  have h2 : (buf.take s ++ buf.drop e).drop s = buf.drop e := by
    rw [List.drop_append_of_le_length (by omega),
      List.drop_eq_nil_of_le (by omega), List.nil_append]
  have h3 : buf.drop e = (buf.drop s).drop (e - s) := by
    rw [List.drop_drop]
    congr 1
    omega
  rw [h1, h2, h3, List.append_assoc, List.take_append_drop,
    List.take_append_drop]

/-- C6: killWholeLine deletes exactly the span from the line start to the
line end plus the trailing newline when one is present, leaves the cursor at
the line start, and re-inserting the killed text at that offset reproduces
the original buffer. -/
theorem c6_kill_whole_line_round_trip (buf : List Char) (p : Nat)
    (hp : p ≤ buf.length) :
    jot_kill_whole_line buf p =
      (buf.take (jot_beginning_of_line buf p) ++
         buf.drop (if lineEnd buf p < buf.length then lineEnd buf p + 1
                   else lineEnd buf p),
       (buf.drop (jot_beginning_of_line buf p)).take
         ((if lineEnd buf p < buf.length then lineEnd buf p + 1
           else lineEnd buf p) - jot_beginning_of_line buf p),
       jot_beginning_of_line buf p) ∧
    insertText (jot_kill_whole_line buf p).1 (jot_kill_whole_line buf p).2.2
      (jot_kill_whole_line buf p).2.1 = buf := by
  have hend : (if lineEnd buf p < buf.length ∧ buf[lineEnd buf p]? = some '\n'
               then lineEnd buf p + 1 else lineEnd buf p) =
      (if lineEnd buf p < buf.length then lineEnd buf p + 1
       else lineEnd buf p) := by
    by_cases h : lineEnd buf p < buf.length
    · rw [if_pos ⟨h, lineEnd_get h⟩, if_pos h]
    · rw [if_neg (fun hc => h hc.1), if_neg h]
  have hkill : jot_kill_whole_line buf p =
      (buf.take (jot_beginning_of_line buf p) ++
         buf.drop (if lineEnd buf p < buf.length then lineEnd buf p + 1
                   else lineEnd buf p),
       (buf.drop (jot_beginning_of_line buf p)).take
         ((if lineEnd buf p < buf.length then lineEnd buf p + 1
           else lineEnd buf p) - jot_beginning_of_line buf p),
       jot_beginning_of_line buf p) := by
    simp only [jot_kill_whole_line, hend]
  refine ⟨hkill, ?_⟩
  rw [hkill]
  apply insert_killed
  · exact Nat.le_trans (jot_beginning_of_line_le buf p) hp
  · have h1 := jot_beginning_of_line_le buf p
    have h2 := le_lineEnd buf p
    by_cases h : lineEnd buf p < buf.length
    · rw [if_pos h]; omega
    · rw [if_neg h]; omega

/-- Witness for C6 on the buffer "ab\ncd" with the cursor on 'a'. -/
theorem c6_witness :
    (0 : Nat) ≤ (['a', 'b', '\n', 'c', 'd'] : List Char).length ∧
    jot_kill_whole_line ['a', 'b', '\n', 'c', 'd'] 0 =
      (['c', 'd'], ['a', 'b', '\n'], 0) ∧
    insertText ['c', 'd'] 0 ['a', 'b', '\n'] = ['a', 'b', '\n', 'c', 'd'] := by
  have h := c6_kill_whole_line_round_trip ['a', 'b', '\n', 'c', 'd'] 0
    (by decide)
  have h1 : jot_kill_whole_line ['a', 'b', '\n', 'c', 'd'] 0 =
      (['c', 'd'], ['a', 'b', '\n'], 0) := by decide
  refine ⟨by decide, h1, ?_⟩
  have h2 := h.2
  rw [h1] at h2
  exact h2

theorem upColWalk_le {buf : List Char} :
    ∀ (pos c : Nat), pos ≤ buf.length → upColWalk buf pos c ≤ buf.length
  | _, 0, h => h
  | pos, c + 1, h => by
    simp only [upColWalk]
    by_cases hc : buf[pos]? = some '\n' ∨ buf.length ≤ pos
    · rw [if_pos hc]; exact h
    · rw [if_neg hc]
      push_neg at hc
      exact upColWalk_le (pos + 1) c (by omega)

theorem moveUpStep_le {buf : List Char} {p q : Nat} (hp : p ≤ buf.length)
    (h : moveUpStep buf p = some q) : q ≤ buf.length := by
  unfold moveUpStep at h
  by_cases hls : jot_beginning_of_line buf p = 0
  · rw [if_pos hls] at h
    exact absurd h (by simp)
  · rw [if_neg hls] at h
    have hq := Option.some.inj h
    subst hq
    apply upColWalk_le
    have h1 := jot_beginning_of_line_le buf (jot_beginning_of_line buf p - 1)
    have h2 := jot_beginning_of_line_le buf p
    omega

theorem jot_move_cursor_up_le {buf : List Char} :
    ∀ (p count : Nat), p ≤ buf.length →
      (jot_move_cursor_up buf p count).1 ≤ buf.length
  | _, 0, hp => hp
  | p, count + 1, hp => by
    simp only [jot_move_cursor_up]
    rcases h : moveUpStep buf p with _ | q
    · exact hp
    · exact jot_move_cursor_up_le q count (moveUpStep_le hp h)

theorem downColWalk_le (buf : List Char) (nle : Nat) :
    ∀ (pos c : Nat), pos ≤ nle → downColWalk buf nle pos c ≤ nle
  | _, 0, h => h
  | pos, c + 1, h => by
    simp only [downColWalk]
    by_cases h1 : pos < nle
    · rw [if_pos h1]
      by_cases h2 : buf[pos]? = some '\n'
      · rw [if_pos h2]; exact h
      · rw [if_neg h2]; exact downColWalk_le buf nle (pos + 1) c h1
    · rw [if_neg h1]; exact h

theorem moveDownStep_le {buf : List Char} {p q : Nat}
    (h : moveDownStep buf p = some q) : q ≤ buf.length := by
  unfold moveDownStep at h
  by_cases hle : buf.length ≤ lineEnd buf (jot_beginning_of_line buf p)
  · rw [if_pos hle] at h
    exact absurd h (by simp)
  · rw [if_neg hle] at h
    have hq := Option.some.inj h
    subst hq
    set le := lineEnd buf (jot_beginning_of_line buf p) with hledef
    set nls := if buf[le]? = some '\n' then le + 1 else le with hnls
    have hnlslen : nls ≤ buf.length := by
      rw [hnls]
      split <;> omega
    have hnlsle : nls ≤ lineEnd buf nls := le_lineEnd buf nls
    have hnlelen : lineEnd buf nls ≤ buf.length := lineEnd_le hnlslen
    have hwalk := downColWalk_le buf (lineEnd buf nls) nls
      (min (p - jot_beginning_of_line buf p) (lineEnd buf nls - nls)) hnlsle
    split <;> omega

theorem jot_move_cursor_down_le {buf : List Char} :
    ∀ (p count : Nat), p ≤ buf.length →
      (jot_move_cursor_down buf p count).1 ≤ buf.length
  | _, 0, hp => hp
  | p, count + 1, hp => by
    simp only [jot_move_cursor_down]
    rcases h : moveDownStep buf p with _ | q
    · exact hp
    · exact jot_move_cursor_down_le q count (moveDownStep_le h)

theorem fnblSkipFuel_le (buf : List Char) (nle : Nat) :
    ∀ (fuel pos : Nat), pos ≤ nle → fnblSkipFuel buf nle fuel pos ≤ nle
  | 0, _, h => h
  | fuel + 1, pos, h => by
    simp only [fnblSkipFuel]
    by_cases hc : pos < nle ∧ isspaceC (buf.getD pos ' ')
    · rw [if_pos hc]
      exact fnblSkipFuel_le buf nle fuel (pos + 1) (by omega)
    · rw [if_neg hc]; exact h

theorem fnblStep_le {buf : List Char} {p q : Nat}
    (h : fnblStep buf p = some q) : q ≤ buf.length := by
  unfold fnblStep at h
  by_cases hle : buf.length ≤ lineEnd buf p
  · rw [if_pos hle] at h
    exact absurd h (by simp)
  · rw [if_neg hle] at h
    have hq := Option.some.inj h
    subst hq
    have h1 : lineEnd buf p + 1 ≤ buf.length := by omega
    have h2 : lineEnd buf p + 1 ≤ lineEnd buf (lineEnd buf p + 1) :=
      le_lineEnd buf _
    have h3 : lineEnd buf (lineEnd buf p + 1) ≤ buf.length := lineEnd_le h1
    have := fnblSkipFuel_le buf (lineEnd buf (lineEnd buf p + 1))
      (lineEnd buf (lineEnd buf p + 1) - (lineEnd buf p + 1))
      (lineEnd buf p + 1) h2
    omega

theorem jot_move_to_first_nonblank_next_line_le {buf : List Char} :
    ∀ (p count : Nat), p ≤ buf.length →
      (jot_move_to_first_nonblank_next_line buf p count).1 ≤ buf.length
  | _, 0, hp => hp
  | p, count + 1, hp => by
    simp only [jot_move_to_first_nonblank_next_line]
    rcases h : fnblStep buf p with _ | q
    · exact hp
    · exact jot_move_to_first_nonblank_next_line_le q count (fnblStep_le h)

theorem gotoScanFuel_le {buf : List Char} {target : Int} :
    ∀ (fuel pos : Nat) (cur : Int), pos ≤ buf.length →
      gotoScanFuel buf target fuel pos cur ≤ buf.length
  | 0, _, _, h => h
  | fuel + 1, pos, cur, h => by
    simp only [gotoScanFuel]
    by_cases hc : pos < buf.length ∧ cur ≤ target
    · rw [if_pos hc]
      exact gotoScanFuel_le fuel (pos + 1) _ (by omega)
    · rw [if_neg hc]; exact h

theorem skipBlanksFuel_le {buf : List Char} :
    ∀ (fuel pos : Nat), pos ≤ buf.length →
      skipBlanksFuel buf fuel pos ≤ buf.length
  | 0, _, h => h
  | fuel + 1, pos, h => by
    simp only [skipBlanksFuel]
    by_cases hc : pos < buf.length ∧ isspaceC (buf.getD pos ' ') ∧
      buf[pos]? ≠ some '\n'
    · rw [if_pos hc]
      exact skipBlanksFuel_le fuel (pos + 1) (by omega)
    · rw [if_neg hc]; exact h

theorem backAfterNewline_le (buf : List Char) (pos : Nat) :
    backAfterNewline buf pos ≤ pos := by
  unfold backAfterNewline
  split <;> omega

theorem goto_line_le (buf : List Char) (target : Int) :
    goto_line buf target ≤ buf.length := by
  unfold goto_line
  apply skipBlanksFuel_le
  have h1 : gotoScan buf 0 1 target ≤ buf.length :=
    gotoScanFuel_le _ 0 1 (by omega)
  have h2 := backAfterNewline_le buf (gotoScan buf 0 1 target)
  have h3 := jot_beginning_of_line_le buf
    (backAfterNewline buf (gotoScan buf 0 1 target))
  omega

/-- C10: every cursor-motion command — beginningOfLine, endOfLine, moveUp,
moveDown, gotoLine, gotoFirstLine and firstNonBlankNextLine — leaves the
buffer content unchanged for every buffer, valid cursor offset, count,
explicit-argument flag and target line, and the resulting cursor offset
stays within `[0, length]`. -/
theorem c10_motion_commands_frame (buf : List Char) (p count : Nat)
    (explicitArg : Bool) (n : Int) (hp : p ≤ buf.length) :
    ((runBeginningOfLine ⟨buf, p⟩).buffer = buf ∧
      (runBeginningOfLine ⟨buf, p⟩).point ≤ buf.length) ∧
    ((runEndOfLine ⟨buf, p⟩).buffer = buf ∧
      (runEndOfLine ⟨buf, p⟩).point ≤ buf.length) ∧
    ((runMoveUp ⟨buf, p⟩ count).buffer = buf ∧
      (runMoveUp ⟨buf, p⟩ count).point ≤ buf.length) ∧
    ((runMoveDown ⟨buf, p⟩ count).buffer = buf ∧
      (runMoveDown ⟨buf, p⟩ count).point ≤ buf.length) ∧
    ((runGotoLine ⟨buf, p⟩ explicitArg n).buffer = buf ∧
      (runGotoLine ⟨buf, p⟩ explicitArg n).point ≤ buf.length) ∧
    ((runGotoFirstLine ⟨buf, p⟩ explicitArg n).buffer = buf ∧
      (runGotoFirstLine ⟨buf, p⟩ explicitArg n).point ≤ buf.length) ∧
    ((runFirstNonblankNextLine ⟨buf, p⟩ count).buffer = buf ∧
      (runFirstNonblankNextLine ⟨buf, p⟩ count).point ≤ buf.length) := by
  refine ⟨⟨rfl, ?_⟩, ⟨rfl, ?_⟩, ⟨rfl, ?_⟩, ⟨rfl, ?_⟩, ⟨rfl, ?_⟩, ⟨rfl, ?_⟩,
    ⟨rfl, ?_⟩⟩
  · exact Nat.le_trans (jot_beginning_of_line_le buf p) hp
  · exact lineEnd_le hp
  · exact jot_move_cursor_up_le p count hp
  · exact jot_move_cursor_down_le p count hp
  · show jot_vi_goto_line buf explicitArg n ≤ buf.length
    unfold jot_vi_goto_line
    split <;> exact goto_line_le buf _
  · show jot_vi_goto_first_line buf explicitArg n ≤ buf.length
    unfold jot_vi_goto_first_line
    split <;> exact goto_line_le buf _
  · exact jot_move_to_first_nonblank_next_line_le p count hp

/-- Witness for C10 on the buffer "ab\ncd" with the cursor on 'b'. -/
theorem c10_witness :
    (1 : Nat) ≤ (['a', 'b', '\n', 'c', 'd'] : List Char).length ∧
    (runMoveDown ⟨['a', 'b', '\n', 'c', 'd'], 1⟩ 1).buffer =
      ['a', 'b', '\n', 'c', 'd'] ∧
    (runMoveDown ⟨['a', 'b', '\n', 'c', 'd'], 1⟩ 1).point ≤
      (['a', 'b', '\n', 'c', 'd'] : List Char).length :=
  ⟨by decide,
    (c10_motion_commands_frame ['a', 'b', '\n', 'c', 'd'] 1 1 true 2
        (by decide)).2.2.2.1.1,
    (c10_motion_commands_frame ['a', 'b', '\n', 'c', 'd'] 1 1 true 2
        (by decide)).2.2.2.1.2⟩

theorem stripBlanksFuel_append :
    ∀ (rest pre : List Char) (fuel : Nat), rest.length ≤ fuel →
      stripBlanksFuel fuel (pre ++ rest) pre.length =
        pre ++ rest.dropWhile (fun c => c == ' ' || c == '\t')
  | [], pre, fuel, _ => by
    cases fuel with
    | zero => simp [stripBlanksFuel]
    | succ f => simp [stripBlanksFuel]
  | c :: rs, pre, fuel, hf => by
    have hget : (pre ++ c :: rs).getD pre.length ' ' = c := by
      rw [List.getD_append_right _ _ _ _ (Nat.le_refl _), Nat.sub_self]
      rfl
    have hlen : pre.length < (pre ++ c :: rs).length := by simp
    cases fuel with
    | zero => exact absurd hf (by simp)
    | succ f =>
      by_cases hb : c = ' ' ∨ c = '\t'
      · have herase : eraseAt (pre ++ c :: rs) pre.length = pre ++ rs := by
          unfold eraseAt
          rw [List.take_left' rfl]
          have hsplit : pre ++ c :: rs = (pre ++ [c]) ++ rs := by simp
          rw [hsplit, List.drop_left' (by simp)]
        have hcond : pre.length < (pre ++ c :: rs).length ∧
            ((pre ++ c :: rs).getD pre.length ' ' = ' ' ∨
              (pre ++ c :: rs).getD pre.length ' ' = '\t') :=
          ⟨hlen, by rw [hget]; exact hb⟩
        simp only [stripBlanksFuel, if_pos hcond, herase]
        rw [stripBlanksFuel_append rs pre f (by simpa using hf)]
        have hpred : (c == ' ' || c == '\t') = true := by
          rcases hb with hb | hb <;> simp [hb]
        rw [List.dropWhile_cons, if_pos hpred]
      · have hcond : ¬ (pre.length < (pre ++ c :: rs).length ∧
            ((pre ++ c :: rs).getD pre.length ' ' = ' ' ∨
              (pre ++ c :: rs).getD pre.length ' ' = '\t')) := by
          rw [hget]
          tauto
        simp only [stripBlanksFuel, if_neg hcond]
        have hpred : ¬ ((c == ' ' || c == '\t') = true) := by
          simp only [Bool.or_eq_true, beq_iff_eq]
          exact hb
        rw [List.dropWhile_cons, if_neg hpred]

theorem jotStripBlanks_append (pre rest : List Char) :
    jotStripBlanks (pre ++ rest) pre.length =
      pre ++ rest.dropWhile (fun c => c == ' ' || c == '\t') := by
  unfold jotStripBlanks
  have h : (pre ++ rest).length - pre.length = rest.length := by simp
  rw [h]
  exact stripBlanksFuel_append rest pre rest.length (Nat.le_refl _)

theorem getD_zero_eq_headD (l : List Char) (d : Char) :
    l.getD 0 d = l.headD d := by
  cases l <;> rfl

theorem headD_mem {l : List Char} {d : Char} (h : l ≠ []) : l.headD d ∈ l := by
  cases l with
  | nil => exact absurd rfl h
  | cons c t => exact List.mem_cons_self c t

/-- The characterization of a single join step of `jot_vi_join_lines`, for a
cursor line that does have a following line: the newline and the stripped run
of leading spaces and tabs of the next line are replaced by exactly one space
iff both boundary characters exist and neither is a space or a newline. -/
theorem viJoinStep_eq (buf : List Char) (p : Nat) (hnul : '\x00' ∉ buf)
    (hlt : lineEnd buf p < buf.length) :
    viJoinStep buf p =
      some (buf.take (lineEnd buf p) ++
        (if 0 < lineEnd buf p ∧
            (buf.drop (lineEnd buf p + 1)).dropWhile
              (fun c => c == ' ' || c == '\t') ≠ [] ∧
            buf.getD (lineEnd buf p - 1) '\x00' ≠ ' ' ∧
            buf.getD (lineEnd buf p - 1) '\x00' ≠ '\n' ∧
            ((buf.drop (lineEnd buf p + 1)).dropWhile
              (fun c => c == ' ' || c == '\t')).headD '\x00' ≠ ' ' ∧
            ((buf.drop (lineEnd buf p + 1)).dropWhile
              (fun c => c == ' ' || c == '\t')).headD '\x00' ≠ '\n'
         then ' ' :: (buf.drop (lineEnd buf p + 1)).dropWhile
                (fun c => c == ' ' || c == '\t')
         else (buf.drop (lineEnd buf p + 1)).dropWhile
                (fun c => c == ' ' || c == '\t'))) := by
  have hnl : buf[lineEnd buf p]? = some '\n' := lineEnd_get hlt
  simp only [viJoinStep]
  rw [if_pos ⟨hlt, hnl⟩]
  generalize he : lineEnd buf p = e at hlt ⊢
  have htake : (buf.take e).length = e := by
    rw [List.length_take]
    omega
  have hstrip : jotStripBlanks (eraseAt buf e) e =
      buf.take e ++
        (buf.drop (e + 1)).dropWhile (fun c => c == ' ' || c == '\t') := by
    unfold eraseAt
    have h2 := jotStripBlanks_append (buf.take e) (buf.drop (e + 1))
    rw [htake] at h2
    exact h2
  rw [hstrip]
  set rest := (buf.drop (e + 1)).dropWhile (fun c => c == ' ' || c == '\t')
    with hrestdef
  have hrlen : (buf.take e ++ rest).length = e + rest.length := by
    rw [List.length_append, htake]
  have hins : insertText (buf.take e ++ rest) e [' '] =
      buf.take e ++ ' ' :: rest := by
    unfold insertText
    rw [List.take_left' htake, List.drop_left' htake, List.append_assoc]
    rfl
  by_cases h0 : 0 < e
  · by_cases hre : rest = []
    · simp [hre]
    · have hB : (if 0 < e then (buf.take e ++ rest).getD (e - 1) '\x00'
            else '\x00') = buf.getD (e - 1) '\x00' := by
        rw [if_pos h0, List.getD_append _ _ _ _ (by omega)]
        rw [List.getD_eq_getElem?_getD, List.getElem?_take, if_pos (by omega),
          ← List.getD_eq_getElem?_getD]
      have hA : (if e < (buf.take e ++ rest).length then
            (buf.take e ++ rest).getD e '\x00' else '\x00') =
          rest.headD '\x00' := by
        have hpos : 0 < rest.length := List.length_pos.mpr hre
        rw [if_pos (by omega), List.getD_append_right _ _ _ _ (by omega),
          htake, Nat.sub_self, getD_zero_eq_headD]
      have hB0 : buf.getD (e - 1) '\x00' ≠ '\x00' := by
        have he1 : e - 1 < buf.length := by omega
        have hgd : buf.getD (e - 1) '\x00' ∈ buf := by
          rw [List.getD_eq_getElem?_getD, List.getElem?_eq_getElem he1]
          simp only [Option.getD_some]
          exact List.getElem_mem he1
        intro hcontra
        exact hnul (hcontra ▸ hgd)
      have hA0 : rest.headD '\x00' ≠ '\x00' := by
        have hmem : rest.headD '\x00' ∈ buf := by
          have h1 : rest.headD '\x00' ∈ rest := headD_mem hre
          rw [hrestdef] at h1
          have h2 := List.Sublist.mem h1 (List.dropWhile_sublist _)
          exact List.Sublist.mem h2 (List.drop_sublist _ _)
        intro hcontra
        exact hnul (hcontra ▸ hmem)
      rw [hB, hA]
      have hCS : (buf.getD (e - 1) '\x00' ≠ '\x00' ∧
          rest.headD '\x00' ≠ '\x00' ∧ buf.getD (e - 1) '\x00' ≠ ' ' ∧
          rest.headD '\x00' ≠ ' ' ∧ buf.getD (e - 1) '\x00' ≠ '\n' ∧
          rest.headD '\x00' ≠ '\n') ↔
          (0 < e ∧ rest ≠ [] ∧ buf.getD (e - 1) '\x00' ≠ ' ' ∧
            buf.getD (e - 1) '\x00' ≠ '\n' ∧ rest.headD '\x00' ≠ ' ' ∧
            rest.headD '\x00' ≠ '\n') := by
        constructor
        · rintro ⟨-, -, h3, h4, h5, h6⟩
          exact ⟨h0, hre, h3, h5, h4, h6⟩
        · rintro ⟨-, -, h3, h4, h5, h6⟩
          exact ⟨hB0, hA0, h3, h5, h4, h6⟩
      by_cases hS : 0 < e ∧ rest ≠ [] ∧ buf.getD (e - 1) '\x00' ≠ ' ' ∧
          buf.getD (e - 1) '\x00' ≠ '\n' ∧ rest.headD '\x00' ≠ ' ' ∧
          rest.headD '\x00' ≠ '\n'
      · rw [if_pos (hCS.mpr hS), if_pos hS, hins]
      · rw [if_neg (fun hc => hS (hCS.mp hc)), if_neg hS]
  · simp [h0]

/-- C3: joining "abc" with the following line "def" yields "abc def" with one
inserted space, joining "abc" with a following empty line yields "abc" with
no space, and in general a single join step replaces the deleted newline and
the stripped leading spaces and tabs of the next line by exactly one space
iff both boundary characters exist and neither is a space or a newline. -/
theorem c3_vi_join_lines :
    jot_vi_join_lines ['a', 'b', 'c', '\n', 'd', 'e', 'f'] 0 1 =
      (['a', 'b', 'c', ' ', 'd', 'e', 'f'], 0, false) ∧
    jot_vi_join_lines ['a', 'b', 'c', '\n'] 0 1 =
      (['a', 'b', 'c'], 0, false) ∧
    ∀ (buf : List Char) (p : Nat), '\x00' ∉ buf →
      lineEnd buf p < buf.length →
      viJoinStep buf p =
        some (buf.take (lineEnd buf p) ++
          (if 0 < lineEnd buf p ∧
              (buf.drop (lineEnd buf p + 1)).dropWhile
                (fun c => c == ' ' || c == '\t') ≠ [] ∧
              buf.getD (lineEnd buf p - 1) '\x00' ≠ ' ' ∧
              buf.getD (lineEnd buf p - 1) '\x00' ≠ '\n' ∧
              ((buf.drop (lineEnd buf p + 1)).dropWhile
                (fun c => c == ' ' || c == '\t')).headD '\x00' ≠ ' ' ∧
              ((buf.drop (lineEnd buf p + 1)).dropWhile
                (fun c => c == ' ' || c == '\t')).headD '\x00' ≠ '\n'
           then ' ' :: (buf.drop (lineEnd buf p + 1)).dropWhile
                  (fun c => c == ' ' || c == '\t')
           else (buf.drop (lineEnd buf p + 1)).dropWhile
                  (fun c => c == ' ' || c == '\t'))) :=
  ⟨by decide, by decide, viJoinStep_eq⟩

/-- Witness for C3 on the buffer "x\ny". -/
theorem c3_witness :
    '\x00' ∉ (['x', '\n', 'y'] : List Char) ∧
    lineEnd ['x', '\n', 'y'] 0 < (['x', '\n', 'y'] : List Char).length ∧
    viJoinStep ['x', '\n', 'y'] 0 = some ['x', ' ', 'y'] := by
  refine ⟨by decide, by decide, ?_⟩
  exact (c3_vi_join_lines.2.2 ['x', '\n', 'y'] 0 (by decide)
    (by decide)).trans (by decide)

/-- Once the current line number exceeds the target, the counting scan of
`goto_line` stops immediately. -/
theorem gotoScanFuel_stop (buf : List Char) {target cur : Int}
    (h : target < cur) :
    ∀ (fuel pos : Nat), gotoScanFuel buf target fuel pos cur = pos
  | 0, _ => rfl
  | fuel + 1, pos => by
    simp only [gotoScanFuel]
    rw [if_neg (fun hc => absurd hc.2 (by omega))]

/-- With target line 1, the scan of `goto_line` stops right after the first
newline (or at the buffer end), and stepping back lands on offset 0. -/
theorem gotoScanFuel_one (buf : List Char) :
    ∀ (fuel pos : Nat), buf.length - pos ≤ fuel → pos ≤ buf.length →
      (∀ j, j < pos → buf[j]? ≠ some '\n') →
      jot_beginning_of_line buf
        (backAfterNewline buf (gotoScanFuel buf 1 fuel pos 1)) = 0
  | 0, pos, hf, hp, hno => by
    have hpos : pos = buf.length := by omega
    subst hpos
    simp only [gotoScanFuel]
    have hback : backAfterNewline buf buf.length = buf.length := by
      unfold backAfterNewline
      rcases Nat.eq_zero_or_pos buf.length with h0 | h0
      · rw [if_neg (fun hc => by omega)]
      · rw [if_neg (fun hc => hno (buf.length - 1) (by omega) hc.2)]
    rw [hback]
    exact jot_beginning_of_line_eq_zero buf buf.length fun j hj => hno j hj
  | fuel + 1, pos, hf, hp, hno => by
    simp only [gotoScanFuel]
    by_cases h1 : pos < buf.length
    · rw [if_pos ⟨h1, le_refl 1⟩]
      by_cases hnl : buf[pos]? = some '\n'
      · rw [if_pos hnl, gotoScanFuel_stop buf (by omega)]
        have hback : backAfterNewline buf (pos + 1) = pos := by
          unfold backAfterNewline
          rw [if_pos ⟨by omega, by rw [Nat.add_sub_cancel]; exact hnl⟩]
          omega
        rw [hback]
        exact jot_beginning_of_line_eq_zero buf pos fun j hj => hno j (by omega)
      · rw [if_neg hnl]
        exact gotoScanFuel_one buf fuel (pos + 1) (by omega) (by omega)
          fun j hj => by
            by_cases hjp : j = pos
            · subst hjp; exact hnl
            · exact hno j (by omega)
    · rw [if_neg (fun hc => h1 hc.1)]
      have hpos : pos = buf.length := by omega
      subst hpos
      have hback : backAfterNewline buf buf.length = buf.length := by
        unfold backAfterNewline
        rcases Nat.eq_zero_or_pos buf.length with h0 | h0
        · rw [if_neg (fun hc => by omega)]
        · rw [if_neg (fun hc => hno (buf.length - 1) (by omega) hc.2)]
      rw [hback]
      exact jot_beginning_of_line_eq_zero buf buf.length fun j hj => hno j hj

/-- The count of newlines in the remaining buffer splits off the character
under the scan position. -/
theorem countNl_drop_succ (buf : List Char) (pos : Nat)
    (h : pos < buf.length) :
    (buf.drop pos).count '\n' =
      (buf.drop (pos + 1)).count '\n' +
        (if buf[pos]? = some '\n' then 1 else 0) := by
  rw [List.drop_eq_getElem_cons h, List.count_cons]
  congr 1
  rw [List.getElem?_eq_getElem h]
  by_cases hc : buf[pos] = '\n'
  · rw [if_pos (by simp [hc]), if_pos (by simp [hc])]
  · rw [if_neg (by simp [hc]), if_neg (by simpa using hc)]

/-- When the buffer ends with a newline and the line budget can absorb every
remaining newline but the last, the counting scan runs to the buffer end. -/
theorem gotoScanFuel_end_nl (buf : List Char) (target : Int)
    (hlast : buf.getLast? = some '\n') :
    ∀ (fuel pos : Nat) (cur : Int), buf.length - pos ≤ fuel →
      pos ≤ buf.length →
      cur + ((buf.drop pos).count '\n' : Int) ≤ target + 1 →
      gotoScanFuel buf target fuel pos cur = buf.length
  | 0, pos, cur, hf, hp, hcur => by
    simp only [gotoScanFuel]
    omega
  | fuel + 1, pos, cur, hf, hp, hcur => by
    simp only [gotoScanFuel]
    by_cases h1 : pos < buf.length
    · have hmem : '\n' ∈ buf.drop pos := by
        apply List.getElem?_mem (n := buf.length - 1 - pos)
        rw [List.getElem?_drop]
        have harith : pos + (buf.length - 1 - pos) = buf.length - 1 := by
          omega
        rw [harith, ← List.getLast?_eq_getElem?]
        exact hlast
      have hcount : 0 < (buf.drop pos).count '\n' :=
        List.count_pos_iff.mpr hmem
      rw [if_pos ⟨h1, by omega⟩]
      have hsplit := countNl_drop_succ buf pos h1
      by_cases hnl : buf[pos]? = some '\n'
      · rw [if_pos hnl]
        rw [if_pos hnl] at hsplit
        exact gotoScanFuel_end_nl buf target hlast fuel (pos + 1) (cur + 1)
          (by omega) (by omega) (by omega)
      · rw [if_neg hnl]
        rw [if_neg hnl] at hsplit
        exact gotoScanFuel_end_nl buf target hlast fuel (pos + 1) cur
          (by omega) (by omega) (by omega)
    · rw [if_neg (fun hc => h1 hc.1)]
      omega

/-- When the buffer does not end with a newline and the line budget can
absorb every remaining newline, the counting scan runs to the buffer end. -/
theorem gotoScanFuel_end_nonl (buf : List Char) (target : Int) :
    ∀ (fuel pos : Nat) (cur : Int), buf.length - pos ≤ fuel →
      pos ≤ buf.length →
      cur + ((buf.drop pos).count '\n' : Int) ≤ target →
      gotoScanFuel buf target fuel pos cur = buf.length
  | 0, pos, cur, hf, hp, hcur => by
    simp only [gotoScanFuel]
    omega
  | fuel + 1, pos, cur, hf, hp, hcur => by
    simp only [gotoScanFuel]
    by_cases h1 : pos < buf.length
    · have hcount : 0 ≤ ((buf.drop pos).count '\n' : Int) := by positivity
      rw [if_pos ⟨h1, by omega⟩]
      have hsplit := countNl_drop_succ buf pos h1
      by_cases hnl : buf[pos]? = some '\n'
      · rw [if_pos hnl]
        rw [if_pos hnl] at hsplit
        exact gotoScanFuel_end_nonl buf target fuel (pos + 1) (cur + 1)
          (by omega) (by omega) (by omega)
      · rw [if_neg hnl]
        rw [if_neg hnl] at hsplit
        exact gotoScanFuel_end_nonl buf target fuel (pos + 1) cur
          (by omega) (by omega) (by omega)
    · rw [if_neg (fun hc => h1 hc.1)]
      omega

/-- C5 counterexample: on the buffer "\rX" (line 1 starts with a carriage
return), gotoLine(1) lands at offset 1, because the final scan of
`goto_line` skips every non-newline `isspace` character — including '\r' —
whereas the first non-space/tab character of line 1 is at offset 0. -/
theorem c5_counterexample :
    goto_line ['\r', 'X'] 1 = 1 ∧
    specFirstNonSpaceTab ['\r', 'X'] 0 = 0 ∧
    goto_line ['\r', 'X'] 1 ≠ specFirstNonSpaceTab ['\r', 'X'] 0 := by
  decide

/-- C5 (amended): gotoLine(n) with n ≤ 1 lands at the first character of
line 1 that is not a non-newline `isspace` character (space, tab, CR, VT, FF
— not merely space and tab), and with n at least the number of content lines
it lands at that position of the final content line; a trailing newline
creates no phantom final line, and the blank scan never crosses the line's
terminating newline. -/
theorem c5_goto_line_clamps (buf : List Char) (n : Int) :
    (n ≤ 1 → goto_line buf n = skipBlanks buf 0) ∧
    ((contentLineCount buf : Int) ≤ n →
      goto_line buf n = skipBlanks buf (finalContentLineStart buf)) := by
  constructor
  · intro hn
    unfold goto_line
    by_cases h0 : n ≤ 0
    · have hscan : gotoScan buf 0 1 n = 0 :=
        gotoScanFuel_stop buf (by omega) _ 0
      rw [hscan]
      have hback : backAfterNewline buf 0 = 0 := by
        unfold backAfterNewline
        rw [if_neg (fun hc => by omega)]
      rw [hback]
      rfl
    · have hn1 : n = 1 := by omega
      subst hn1
      have h := gotoScanFuel_one buf (buf.length - 0) 0 (by omega) (by omega)
        (fun j hj => absurd hj (Nat.not_lt_zero j))
      unfold gotoScan
      rw [h]
  · intro hn
    by_cases hlast : buf.getLast? = some '\n'
    · have hne : buf ≠ [] := by
        intro h
        rw [h] at hlast
        simp at hlast
      have hcnt : contentLineCount buf = buf.count '\n' := by
        unfold contentLineCount
        rw [if_neg (fun hc => hc.2 hlast)]
        omega
      have hscan : gotoScan buf 0 1 n = buf.length := by
        unfold gotoScan
        apply gotoScanFuel_end_nl buf n hlast _ 0 1 (by omega) (by omega)
        rw [List.drop_zero]
        rw [hcnt] at hn
        omega
      unfold goto_line
      rw [hscan]
      have hlen0 : 0 < buf.length := List.length_pos.mpr hne
      have hback : backAfterNewline buf buf.length = buf.length - 1 := by
        unfold backAfterNewline
        rw [if_pos ⟨hlen0, by rw [← List.getLast?_eq_getElem?]; exact hlast⟩]
      rw [hback]
      unfold finalContentLineStart
      rw [if_pos hlast]
    · by_cases hnil : buf = []
      · subst hnil
        rfl
      · have hcnt : contentLineCount buf = buf.count '\n' + 1 := by
          unfold contentLineCount
          rw [if_pos ⟨hnil, hlast⟩]
        have hscan : gotoScan buf 0 1 n = buf.length := by
          unfold gotoScan
          apply gotoScanFuel_end_nonl buf n _ 0 1 (by omega) (by omega)
          rw [List.drop_zero]
          rw [hcnt] at hn
          push_cast at hn ⊢
          omega
        unfold goto_line
        rw [hscan]
        have hback : backAfterNewline buf buf.length = buf.length := by
          unfold backAfterNewline
          rw [if_neg]
          intro hc
          exact hlast (by rw [List.getLast?_eq_getElem?]; exact hc.2)
        rw [hback]
        unfold finalContentLineStart
        rw [if_neg hlast]

/-- Witness for C5 (amended) on the buffer " a\n\tb". -/
theorem c5_witness :
    (1 : Int) ≤ 1 ∧ goto_line [' ', 'a', '\n', '\t', 'b'] 1 = 1 ∧
    (contentLineCount [' ', 'a', '\n', '\t', 'b'] : Int) ≤ 9 ∧
    goto_line [' ', 'a', '\n', '\t', 'b'] 9 = 4 := by
  refine ⟨by decide, ?_, by decide, ?_⟩
  · exact ((c5_goto_line_clamps [' ', 'a', '\n', '\t', 'b'] 1).1
      (by decide)).trans (by decide)
  · exact ((c5_goto_line_clamps [' ', 'a', '\n', '\t', 'b'] 9).2
      (by decide)).trans (by decide)

end Jot
